import Mathlib

/-!
# Verification of the moonbit-registry-tools mirroring core

A shallow embedding, in Lean 4, of the source-aware mirroring and
dependency-resolution engine of `moonbit-registry-tools`:

* glob-based package selection (`matchGlob`),
* version comparison and latest-version selection
  (`compareVersions`, `getLatestVersion`),
* the dependency resolver (`resolve`, `resolveTransitiveDeps`),
* the mirror download phase (`Registry.mirror`),
* the package store cache / checksum logic (`downloadPackage`),
* source priority ordering and auth-header construction
  (`listEnabledSources`, `getFetchOptions`, `resolveEnvVar`),
* the multi-source fallback downloader (`downloadPackageWithFallback`,
  modelled from the specification because the source-aware package store
  is not part of the available sources).

Strings are embedded as lists of characters (`Str`), JavaScript `Map` /
`Set` objects as association lists / duplicate-free lists in insertion
order, and the filesystem / network effects as explicit state passed in
and out of the embedded functions.
-/

namespace MoonRegistry

/-- Strings, embedded as lists of characters. -/
abbrev Str := List Char

/-! ## Glob matching (`matchGlob`, dependency-resolver.ts / index-manager.ts)

The source translates a glob pattern into a JavaScript regular expression:
every regex metacharacter except `*` and `?` is escaped (hence literal),
`*` becomes `.*`, `?` becomes `.`, and the regex is anchored with `^...$`.
We embed the pattern as a token list: `*` and `?` become the `star` and
`anyc` tokens, every other character a literal.  JavaScript's `.` (without
the `s` flag) matches any character except the four line terminators
`\n`, `\r`, U+2028 and U+2029; `globMatch` reproduces exactly that. -/

/-- One token of a compiled glob pattern. -/
inductive GTok where
  | star
  | anyc
  | lit (c : Char)
deriving DecidableEq, Repr

/-- Compile a glob pattern to tokens, as the regex translation in
`matchGlob` does: `*` ↦ `.*`, `?` ↦ `.`, everything else escaped. -/
def parseGlob : Str → List GTok
  | [] => []
  | c :: cs =>
    (if c = '*' then GTok.star else if c = '?' then GTok.anyc else GTok.lit c) :: parseGlob cs

/-- JavaScript line terminators: the characters `.` does not match
without the `s` (dotAll) flag. -/
def isLineTerm (c : Char) : Bool :=
  c = '\n' || c = '\r' || c = Char.ofNat 0x2028 || c = Char.ofNat 0x2029

/-- The backtracking scan of `.*`: try the continuation `k` on the
current suffix, else consume one non-line-terminator character and
retry. -/
def starScan (k : Str → Bool) : Str → Bool
  | [] => k []
  | x :: xs => k (x :: xs) || (!isLineTerm x && starScan k xs)

/-- Anchored matching of a compiled glob against a string, with
JavaScript `.`-semantics (line terminators are not matched by `?` or
consumed by `*`). -/
def globMatch : List GTok → Str → Bool
  | [], s => s.isEmpty
  | GTok.lit c :: ps, s =>
    match s with
    | [] => false
    | x :: xs => x = c && globMatch ps xs
  | GTok.anyc :: ps, s =>
    match s with
    | [] => false
    | x :: xs => !isLineTerm x && globMatch ps xs
  | GTok.star :: ps, s => starScan (globMatch ps) s

/-- `matchGlob(str, pattern)` from the source: compile the pattern and
run the anchored regex against the whole string. -/
def matchGlob (s pattern : Str) : Bool := globMatch (parseGlob pattern) s

/-- The unrestricted scan of `.*` as the specification's words read
(any run of characters). -/
def starScanAll (k : Str → Bool) : Str → Bool
  | [] => k []
  | x :: xs => k (x :: xs) || starScanAll k xs

/-- The matcher the specification's words describe: identical to
`globMatch` except that `?` matches *any* single character and `*` any
run of characters, with no line-terminator restriction. -/
def specGlobMatch : List GTok → Str → Bool
  | [], s => s.isEmpty
  | GTok.lit c :: ps, s =>
    match s with
    | [] => false
    | x :: xs => x = c && specGlobMatch ps xs
  | GTok.anyc :: ps, s =>
    match s with
    | [] => false
    | _ :: xs => specGlobMatch ps xs
  | GTok.star :: ps, s => starScanAll (specGlobMatch ps) s

/-- Declarative matching relation: a literal consumes itself, `?` one
non-line-terminator character, `*` any run of non-line-terminator
characters (including the empty run); the whole string must be
consumed (anchoring). -/
inductive GlobMatches : List GTok → Str → Prop where
  | nil : GlobMatches [] []
  | lit {c : Char} {ps : List GTok} {xs : Str} :
      GlobMatches ps xs → GlobMatches (GTok.lit c :: ps) (c :: xs)
  | anyc {x : Char} {ps : List GTok} {xs : Str} :
      isLineTerm x = false → GlobMatches ps xs → GlobMatches (GTok.anyc :: ps) (x :: xs)
  | star_skip {ps : List GTok} {xs : Str} :
      GlobMatches ps xs → GlobMatches (GTok.star :: ps) xs
  | star_take {x : Char} {ps : List GTok} {xs : Str} :
      isLineTerm x = false → GlobMatches (GTok.star :: ps) xs →
      GlobMatches (GTok.star :: ps) (x :: xs)

/-! ## Version comparison (`compareVersions`, dependency-resolver.ts)

`compareVersions` splits both strings on `"."`, converts each component
with JavaScript's `parseInt(p, 10) || 0` (so a component with no leading
integer, i.e. `NaN`, becomes `0`), pads the shorter list with `0`, and
returns the difference of the first unequal pair of components. -/

/-- `String.prototype.split(sep)` for a single-character separator. -/
def splitOnChar (sep : Char) : Str → List Str
  | [] => [[]]
  | c :: cs =>
    let r := splitOnChar sep cs
    if c = sep then [] :: r
    else (c :: r.headD []) :: r.tail

/-- JavaScript whitespace (`parseInt` skips any leading run of these). -/
def isJsSpace (c : Char) : Bool :=
  let n := c.toNat
  n = 0x20 || n = 0x09 || n = 0x0a || n = 0x0b || n = 0x0c || n = 0x0d ||
  n = 0xa0 || n = 0x1680 || (0x2000 ≤ n && n ≤ 0x200a) ||
  n = 0x2028 || n = 0x2029 || n = 0x202f || n = 0x205f || n = 0x3000 || n = 0xfeff

/-- Value of a decimal digit character. -/
def digitVal (c : Char) : Option Nat :=
  if '0' ≤ c ∧ c ≤ '9' then some (c.toNat - '0'.toNat) else none

/-- Accumulate a maximal run of leading decimal digits. -/
def leadingNatAux : Str → Nat → Nat
  | [], acc => acc
  | c :: cs, acc =>
    match digitVal c with
    | some d => leadingNatAux cs (acc * 10 + d)
    | none => acc

/-- The numeric value of a maximal nonempty run of leading digits,
`none` when the first character is not a digit. -/
def leadingNat : Str → Option Nat
  | [] => none
  | c :: cs =>
    match digitVal c with
    | some d => some (leadingNatAux cs d)
    | none => none

/-- JavaScript `parseInt(s, 10)`: skip leading whitespace, read an
optional sign and then a maximal run of digits; `none` models `NaN`. -/
def jsParseInt10 (s : Str) : Option Int :=
  match s.dropWhile (fun c => isJsSpace c) with
  | '-' :: rest => (leadingNat rest).map (fun n => -(n : Int))
  | '+' :: rest => (leadingNat rest).map (fun n => (n : Int))
  | rest => (leadingNat rest).map (fun n => (n : Int))

/-- The numeric components of a version string:
`a.split(".").map((p) => Number.parseInt(p, 10) || 0)`. -/
def versionParts (s : Str) : List Int :=
  (splitOnChar '.' s).map (fun p => (jsParseInt10 p).getD 0)

/-- Tail of the comparison loop once `b`'s components are exhausted:
each remaining component of `a` is compared against the padding `0`. -/
def cmpLeft : List Int → Int
  | [] => 0
  | a :: as => if a ≠ (0 : Int) then a - 0 else cmpLeft as

/-- Tail of the comparison loop once `a`'s components are exhausted:
the padding `0` is compared against each remaining component of `b`. -/
def cmpRight : List Int → Int
  | [] => 0
  | b :: bs => if (0 : Int) ≠ b then 0 - b else cmpRight bs

/-- The comparison loop of `compareVersions`: walk both component lists
in step, treating a missing component as `0`, and return the difference
at the first position where they disagree. -/
def cmpComponents : List Int → List Int → Int
  | [], bs => cmpRight bs
  | a :: as, [] => cmpLeft (a :: as)
  | a :: as, b :: bs => if a ≠ b then a - b else cmpComponents as bs

/-- `compareVersions(a, b)` from the source. -/
def compareVersions (a b : Str) : Int :=
  cmpComponents (versionParts a) (versionParts b)

/-! ## Stable sorting (JavaScript `Array.prototype.sort`)

JavaScript's `sort` with a consistent comparator `c` produces the unique
stable permutation that is ascending in `c`; it is modelled as insertion
sort over the relation `fun a b => c a b ≤ 0` (an element is inserted
before the first element not strictly smaller than it, which is exactly
the stable placement). -/

/-- JavaScript `array.sort(c)` for a consistent comparator `c`. -/
def jsSortBy {α : Type} (c : α → α → Int) (l : List α) : List α :=
  List.insertionSort (fun a b => c a b ≤ 0) l

/-! ## Package metadata (types.ts) and latest-version selection -/

/-- `PackageVersion` from types.ts.  `deps` is a JavaScript object,
embedded as an association list in key-insertion order; the optional
`yanked` flag is embedded as a `Bool` (absent ↦ `false`, matching the
truthiness test `if (version.yanked)`). -/
structure PackageVersion where
  version : Str
  checksum : Str
  deps : List (Str × Str)
  yanked : Bool
deriving DecidableEq

/-- `PackageMetadata` from types.ts. -/
structure PackageMetadata where
  username : Str
  name : Str
  versions : List PackageVersion
deriving DecidableEq

/-- `DependencyResolver.getLatestVersion`: drop yanked versions, sort by
the comparator `(a, b) ↦ compareVersions(b.version, a.version)`
(descending in `compareVersions`) and return the first element;
`none` when every version is yanked. -/
def getLatestVersion (m : PackageMetadata) : Option PackageVersion :=
  (jsSortBy (fun a b => compareVersions b.version a.version)
    (m.versions.filter (fun v => !v.yanked))).head?

/-! ## Package ids and the per-source index (types.ts / index-manager.ts) -/

/-- A package key: `(username, name)`. -/
abbrev PkgKey := Str × Str

/-- `parsePackageId` from types.ts: split on `/` and require exactly
two nonempty parts. -/
def parsePackageId (s : Str) : Option PkgKey :=
  match splitOnChar '/' s with
  | [u, n] => if u ≠ [] ∧ n ≠ [] then some (u, n) else none
  | _ => none

/-- `formatPackageId` from types.ts. -/
def formatPackageId (k : PkgKey) : Str := k.1 ++ '/' :: k.2

/-- The parsed view of one source's on-disk index: the metadata records
reachable through `IndexManager.getPackageFromSource`, keyed by
`(username, name)` in directory-listing order. -/
abbrev Index := List (PkgKey × PackageMetadata)

/-- Index lookup: the JSONL read of `getPackageFromSource` for a file
that exists and parses (the error path is studied separately with
`getPackageFromSource`). -/
def lookupMeta : Index → PkgKey → Option PackageMetadata
  | [], _ => none
  | e :: rest, k => if e.1 = k then some e.2 else lookupMeta rest k

/-- `IndexManager.listPackagesFromSource`: every package id of the
index as a `username/name` string, in listing order. -/
def listPackages (index : Index) : List Str :=
  index.map (fun e => formatPackageId e.1)

/-! ## The dependency resolver (dependency-resolver.ts) -/

/-- JavaScript `Set.prototype.add`: append if absent (insertion order,
no duplicates). -/
def addUnique {α : Type} [DecidableEq α] (l : List α) (x : α) : List α :=
  if x ∈ l then l else l ++ [x]

/-- Collect a list into a JavaScript `Set`, keeping first occurrences. -/
def dedup {α : Type} [DecidableEq α] (l : List α) : List α :=
  l.foldl addUnique []

/-- `DependencyResolver.matchPatterns`: with `full`, every package of
the index; otherwise the union, as a `Set`, over all patterns of the
ids matching that pattern. -/
def matchPatterns (index : Index) (patterns : List Str) (full : Bool) : List Str :=
  if full then listPackages index
  else dedup ((patterns.map
    (fun p => (listPackages index).filter (fun id => matchGlob id p))).flatten)

/-- Record a skipped dependency: the `skipped` map is a JavaScript
`Map` (insertion-ordered); a missing key gets a fresh empty list, then
the requiring package is pushed. -/
def skipAdd : List (Str × List Str) → Str → Str → List (Str × List Str)
  | [], dep, requirer => [(dep, [requirer])]
  | (k, rs) :: rest, dep, requirer =>
    if k = dep then (k, rs ++ [requirer]) :: rest
    else (k, rs) :: skipAdd rest dep requirer

/-- The dependency loop inside `resolveTransitiveDeps`: each dependency
name of the latest version is ignored (already in the result set),
added to the result and the worklist (it matches one of the original
patterns), or recorded in the skip map. -/
def stepDeps (patterns : List Str) (pkgName : Str) :
    List Str → List Str → List (Str × List Str) → List Str →
    List Str × List (Str × List Str) × List Str
  | [], packages, skipped, work => (packages, skipped, work)
  | dep :: rest, packages, skipped, work =>
    if dep ∈ packages then stepDeps patterns pkgName rest packages skipped work
    else if patterns.any (fun p => matchGlob dep p) then
      stepDeps patterns pkgName rest (packages ++ [dep]) skipped (addUnique work dep)
    else
      stepDeps patterns pkgName rest packages (skipAdd skipped dep pkgName) work

/-! The next lemmas support the termination argument of the worklist
loop: a worklist entry that advances the state is an index entry not
yet in the processed set, so the number of unprocessed index entries,
paired lexicographically with the worklist length, decreases. -/

theorem splitOnChar_ne_nil (sep : Char) : ∀ s : Str, splitOnChar sep s ≠ [] := by
  intro s
  cases s with
  | nil => simp [splitOnChar]
  | cons c cs =>
    simp only [splitOnChar]
    split <;> simp

theorem splitOnChar_one (sep : Char) :
    ∀ s u : Str, splitOnChar sep s = [u] → s = u := by
  intro s
  induction s with
  | nil =>
    intro u h
    simp only [splitOnChar] at h
    injection h
  | cons c cs ih =>
    intro u h
    simp only [splitOnChar] at h
    by_cases hc : c = sep
    · rw [if_pos hc] at h
      injection h with h1 h2
      exact absurd h2 (splitOnChar_ne_nil sep cs)
    · rw [if_neg hc] at h
      injection h with h1 h2
      cases hr : splitOnChar sep cs with
      | nil => exact absurd hr (splitOnChar_ne_nil sep cs)
      | cons h0 t =>
        rw [hr] at h1 h2
        simp only [List.headD_cons] at h1
        simp only [List.tail_cons] at h2
        have hcs : cs = h0 := ih h0 (by rw [hr, h2])
        rw [hcs]
        exact h1

theorem splitOnChar_two (sep : Char) :
    ∀ s u n : Str, splitOnChar sep s = [u, n] → s = u ++ sep :: n := by
  intro s
  induction s with
  | nil => intro u n h; simp [splitOnChar] at h
  | cons c cs ih =>
    intro u n h
    simp only [splitOnChar] at h
    by_cases hc : c = sep
    · rw [if_pos hc] at h
      injection h with h1 h2
      have hcs : cs = n := splitOnChar_one sep cs n h2
      rw [← h1, hcs, hc]
      rfl
    · rw [if_neg hc] at h
      injection h with h1 h2
      cases hr : splitOnChar sep cs with
      | nil => exact absurd hr (splitOnChar_ne_nil sep cs)
      | cons h0 t =>
        rw [hr] at h1 h2
        simp only [List.headD_cons] at h1
        simp only [List.tail_cons] at h2
        have hcs : cs = h0 ++ sep :: n := ih h0 n (by rw [hr, h2])
        rw [hcs, ← h1]
        rfl

theorem parsePackageId_eq {s : Str} {k : PkgKey}
    (h : parsePackageId s = some k) : s = formatPackageId k := by
  unfold parsePackageId at h
  cases hs : splitOnChar '/' s with
  | nil => rw [hs] at h; simp at h
  | cons u t =>
    rw [hs] at h
    cases t with
    | nil => simp at h
    | cons n t2 =>
      cases t2 with
      | nil =>
        dsimp at h
        split at h
        · cases h
          exact splitOnChar_two '/' s _ _ hs
        · cases h
      | cons _ _ => simp at h

theorem lookupMeta_mem : ∀ (index : Index) (k : PkgKey) (m : PackageMetadata),
    lookupMeta index k = some m → (k, m) ∈ index := by
  intro index k m
  induction index with
  | nil => intro h; simp [lookupMeta] at h
  | cons e rest ih =>
    intro h
    simp only [lookupMeta] at h
    split at h
    · rename_i heq
      injection h with h2
      obtain ⟨e1, e2⟩ := e
      dsimp only at heq h2
      subst heq
      subst h2
      exact List.mem_cons_self _ _
    · exact List.mem_cons_of_mem _ (ih h)

theorem length_filter_mono {α : Type} (l : List α) (p q : α → Bool)
    (h : ∀ a ∈ l, q a = true → p a = true) :
    (l.filter q).length ≤ (l.filter p).length := by
  induction l with
  | nil => simp
  | cons x l ih =>
    have ih' := ih (fun a ha => h a (List.mem_cons_of_mem _ ha))
    by_cases hq : q x = true
    · have hp := h x (List.mem_cons_self _ _) hq
      simp [List.filter_cons, hq, hp]
      omega
    · simp only [List.filter_cons, Bool.not_eq_true] at hq ⊢
      rw [hq]
      by_cases hp : p x = true
      · simp [hp]
        omega
      · simp only [Bool.not_eq_true] at hp
        rw [hp]
        simpa using ih'

theorem length_filter_lt {α : Type} (l : List α) (p q : α → Bool)
    (h : ∀ a ∈ l, q a = true → p a = true)
    (a : α) (ha : a ∈ l) (hp : p a = true) (hq : q a = false) :
    (l.filter q).length < (l.filter p).length := by
  induction l with
  | nil => simp at ha
  | cons x l ih =>
    have hmono := length_filter_mono l p q (fun b hb => h b (List.mem_cons_of_mem _ hb))
    rcases List.mem_cons.mp ha with rfl | ha'
    · simp [List.filter_cons, hq, hp]
      omega
    · have ih' := ih (fun b hb => h b (List.mem_cons_of_mem _ hb)) ha'
      by_cases hqx : q x = true
      · have hpx := h x (List.mem_cons_self _ _) hqx
        simp [List.filter_cons, hqx, hpx]
        omega
      · simp only [Bool.not_eq_true] at hqx
        by_cases hpx : p x = true
        · simp [List.filter_cons, hqx, hpx]
          omega
        · simp only [Bool.not_eq_true] at hpx
          simp [List.filter_cons, hqx, hpx]
          omega

/-- The number of index entries whose formatted id is not yet in the
processed set: the decreasing measure of the worklist loop. -/
def unprocessedCount (index : Index) (processed : List Str) : Nat :=
  (index.filter (fun e => decide (formatPackageId e.1 ∉ processed))).length

theorem unprocessedCount_mono (index : Index) (processed : List Str) (x : Str) :
    unprocessedCount index (x :: processed) ≤ unprocessedCount index processed := by
  apply length_filter_mono
  intro a _ h
  simp only [decide_eq_true_eq] at h ⊢
  intro hmem
  exact h (List.mem_cons_of_mem _ hmem)

theorem unprocessedCount_lt (index : Index) (processed : List Str)
    (k : PkgKey) (m : PackageMetadata) (hk : (k, m) ∈ index)
    (hnp : formatPackageId k ∉ processed) :
    unprocessedCount index (formatPackageId k :: processed) <
      unprocessedCount index processed := by
  refine length_filter_lt _ _ _ ?_ (k, m) hk ?_ ?_
  · intro a _ h
    simp only [decide_eq_true_eq] at h ⊢
    intro hmem
    exact h (List.mem_cons_of_mem _ hmem)
  · simpa using hnp
  · simp

theorem prodLex_of_le_of_lt {a a' b b' : Nat} (h1 : a' ≤ a) (h2 : b' < b) :
    Prod.Lex (· < ·) (· < ·) (a', b') (a, b) := by
  rcases Nat.lt_or_ge a' a with h | h
  · exact Prod.Lex.left _ _ h
  · have : a' = a := Nat.le_antisymm h1 h
    subst this
    exact Prod.Lex.right _ h2

/-- The worklist loop of `DependencyResolver.resolveTransitiveDeps`:
pop the first worklist entry; skip it when already processed; otherwise
mark it processed, read its metadata from the index, take the latest
non-yanked version, and fold that version's dependency names through
`stepDeps`. -/
def resolveLoop (index : Index) (patterns : List Str)
    (packages : List Str) (skipped : List (Str × List Str))
    (toProcess processed : List Str) : List Str × List (Str × List Str) :=
  match toProcess with
  | [] => (packages, skipped)
  | pkgName :: rest =>
    if hmem : pkgName ∈ processed then
      resolveLoop index patterns packages skipped rest processed
    else
      match hp : parsePackageId pkgName with
      | none => resolveLoop index patterns packages skipped rest (pkgName :: processed)
      | some k =>
        match hm : lookupMeta index k with
        | none => resolveLoop index patterns packages skipped rest (pkgName :: processed)
        | some meta =>
          match getLatestVersion meta with
          | none => resolveLoop index patterns packages skipped rest (pkgName :: processed)
          | some v =>
            let r := stepDeps patterns pkgName (v.deps.map Prod.fst) packages skipped rest
            resolveLoop index patterns r.1 r.2.1 r.2.2 (pkgName :: processed)
termination_by (unprocessedCount index processed, toProcess.length)
decreasing_by
  · exact Prod.Lex.right _ (by simp)
  · exact prodLex_of_le_of_lt (unprocessedCount_mono index processed pkgName) (by simp)
  · exact prodLex_of_le_of_lt (unprocessedCount_mono index processed pkgName) (by simp)
  · exact prodLex_of_le_of_lt (unprocessedCount_mono index processed pkgName) (by simp)
  · have hfmt := parsePackageId_eq hp
    apply Prod.Lex.left
    rw [hfmt]
    exact unprocessedCount_lt index processed k meta (lookupMeta_mem index k meta hm)
      (hfmt ▸ hmem)

/-- `DependencyResolver.isPackageCached`: some version of the package
has a cached artifact; `hasPkg` abstracts `PackageStore.hasPackage`
(a pure existence check on the deterministic cache path). -/
def isPackageCached (index : Index) (hasPkg : PkgKey → Str → Bool) (pkgName : Str) : Bool :=
  match parsePackageId pkgName with
  | none => false
  | some k =>
    match lookupMeta index k with
    | none => false
    | some meta => meta.versions.any (fun v => hasPkg k v.version)

/-- `DependencyResolution` from types.ts: the resolver's result. -/
structure ResolveResult where
  packages : List Str
  skipped : List (Str × List Str)
  cached : List Str
deriving DecidableEq

/-- `DependencyResolver.resolve`: seed the result with the packages
matching the patterns, close under dependencies unless `strict`, then
annotate the packages that are already cached. -/
def resolve (index : Index) (hasPkg : PkgKey → Str → Bool)
    (patterns : List Str) (full strict : Bool) : ResolveResult :=
  let seeds := dedup (matchPatterns index patterns full)
  let r := if strict then (seeds, []) else resolveLoop index patterns seeds [] seeds []
  { packages := r.1, skipped := r.2,
    cached := r.1.filter (fun p => isPackageCached index hasPkg p) }

/-- The download phase of `Registry.mirror`: the download attempts the
mirror loop issues after resolution, in order.  `toDownload` filters
out every package marked cached; for each remaining package whose id
parses and whose metadata is found, every non-yanked version is
attempted. -/
def mirrorDownloads (index : Index) (res : ResolveResult) : List (PkgKey × Str) :=
  ((res.packages.filter (fun p => decide (p ∉ res.cached))).map (fun pkgName =>
    match parsePackageId pkgName with
    | none => []
    | some k =>
      match lookupMeta index k with
      | none => []
      | some meta =>
        (meta.versions.filter (fun v => !v.yanked)).map (fun v => (k, v.version)))).flatten

/-! ## The package store (package-store.ts)

`downloadPackage` is embedded as a state transformer on the content of
the deterministic target path (`Option Bytes`: `none` = no file).  The
SHA-256 of a file is abstracted as a function `hash : Bytes → Str`;
`verifyChecksum` compares hex digests case-insensitively as
crypto.ts does.  The network fetch is a value `Except Nat Bytes` (a
non-success HTTP status or the buffered body); the third component of
the result counts how many fetches the call performed. -/

/-- Downloaded archive bytes. -/
abbrev Bytes := List Nat

/-- `crypto.verifyChecksum`: case-insensitive comparison of the hex
digest of the content with the expected digest. -/
def verifyChecksum (hash : Bytes → Str) (content : Bytes) (expected : Str) : Bool :=
  decide ((hash content).map Char.toLower = expected.map Char.toLower)

/-- Outcome of one `downloadPackage` call. -/
inductive DLResult where
  | ok
  | httpError (status : Nat)
  | checksumError
deriving DecidableEq

/-- The fetch-and-write tail of `downloadPackage`: a non-success status
raises without writing; on success the body is written and, when a
checksum was supplied, verified — a post-write mismatch deletes the
just-written file and raises. -/
def dlFetch (hash : Bytes → Str) (expected : Option Str) (fetch : Except Nat Bytes) :
    Option Bytes × DLResult × Nat :=
  match fetch with
  | Except.error status => (none, DLResult.httpError status, 1)
  | Except.ok data =>
    match expected with
    | some e =>
      if verifyChecksum hash data e then (some data, DLResult.ok, 1)
      else (none, DLResult.checksumError, 1)
    | none => (some data, DLResult.ok, 1)

/-- `PackageStore.downloadPackage`: an existing file that verifies (or
is trusted without a checksum) is returned with no fetch; an existing
file that fails verification is removed and the download proceeds; with
no file the download proceeds directly. -/
def downloadPackage (hash : Bytes → Str) (disk : Option Bytes) (expected : Option Str)
    (fetch : Except Nat Bytes) : Option Bytes × DLResult × Nat :=
  match disk with
  | some content =>
    match expected with
    | some e =>
      if verifyChecksum hash content e then (some content, DLResult.ok, 0)
      else dlFetch hash (some e) fetch
    | none => (some content, DLResult.ok, 0)
  | none => dlFetch hash expected fetch

/-! ## Sources (types.ts / source-manager.ts) -/

/-- `SourceAuth.type`. -/
inductive AuthType where
  | none
  | bearer
  | basic
deriving DecidableEq

/-- `SourceAuth` from types.ts. -/
structure SourceAuth where
  type : AuthType
  token : Option Str
  username : Option Str
  password : Option Str
deriving DecidableEq

/-- `MirrorSource` from types.ts (the fields the studied operations
read). -/
structure MirrorSource where
  name : Str
  enabled : Bool
  priority : Option Int
  auth : Option SourceAuth
deriving DecidableEq

/-- `SourceManager.listEnabledSources`: filter the declared sources
(the manager's `Map` values, in declaration order) to the enabled ones
and sort ascending by `priority ?? 100` with JavaScript's stable sort. -/
def listEnabledSources (sources : List MirrorSource) : List MirrorSource :=
  jsSortBy (fun a b => a.priority.getD 100 - b.priority.getD 100)
    (sources.filter (fun s => s.enabled))

/-- `SourceManager.resolveEnvVar`: replace every `${VAR}` occurrence
with the value of the environment variable `VAR`, or the empty string
when it is unset (`process.env[varName] ?? ""`).  The scan is left to
right; a substituted value is not rescanned; `${}` (empty name) or an
unclosed `${` is left verbatim. -/
def resolveEnvVar (env : Str → Option Str) : Str → Str
  | [] => []
  | '$' :: '{' :: rest =>
    let varName := rest.takeWhile (· != '}')
    let rem := rest.dropWhile (· != '}')
    if h : varName ≠ [] ∧ rem ≠ [] then
      (env varName).getD [] ++ resolveEnvVar env rem.tail
    else
      '$' :: resolveEnvVar env ('{' :: rest)
  | c :: cs => c :: resolveEnvVar env cs
termination_by s => s.length
decreasing_by
  · simp only [List.length_cons]
    have h1 : (rest.dropWhile (· != '}')).length ≤ rest.length :=
      (List.dropWhile_suffix _).sublist.length_le
    have h2 : 0 < (rest.dropWhile (· != '}')).length := List.length_pos.mpr h.2
    rw [List.length_tail]
    omega
  · simp
  · simp

/-- UTF-8 encoding of one code point. -/
def utf8Char (c : Char) : List Nat :=
  let n := c.toNat
  if n < 0x80 then [n]
  else if n < 0x800 then [0xC0 + n / 0x40, 0x80 + n % 0x40]
  else if n < 0x10000 then
    [0xE0 + n / 0x1000, 0x80 + (n / 0x40) % 0x40, 0x80 + n % 0x40]
  else
    [0xF0 + n / 0x40000, 0x80 + (n / 0x1000) % 0x40, 0x80 + (n / 0x40) % 0x40, 0x80 + n % 0x40]

/-- `Buffer.from(string)`: the UTF-8 bytes of a string. -/
def utf8Encode (s : Str) : List Nat := (s.map utf8Char).flatten

/-- One base64 alphabet character. -/
def base64Digit (n : Nat) : Char :=
  if n < 26 then Char.ofNat ('A'.toNat + n)
  else if n < 52 then Char.ofNat ('a'.toNat + n - 26)
  else if n < 62 then Char.ofNat ('0'.toNat + n - 52)
  else if n = 62 then '+'
  else '/'

/-- `buffer.toString("base64")`. -/
def base64Encode : List Nat → Str
  | [] => []
  | [b1] =>
    [base64Digit (b1 / 4), base64Digit (b1 % 4 * 16), '=', '=']
  | [b1, b2] =>
    [base64Digit (b1 / 4), base64Digit (b1 % 4 * 16 + b2 / 16),
     base64Digit (b2 % 16 * 4), '=']
  | b1 :: b2 :: b3 :: rest =>
    base64Digit (b1 / 4) :: base64Digit (b1 % 4 * 16 + b2 / 16) ::
    base64Digit (b2 % 16 * 4 + b3 / 64) :: base64Digit (b3 % 64) :: base64Encode rest

/-- `SourceManager.getFetchOptions`: the request headers for a source
(`none` models an absent `options.headers`).  `${VAR}` indirections in
credential fields are resolved at call time through `resolveEnvVar`; a
falsy (absent or empty) credential field skips its header. -/
def getFetchOptions (env : Str → Option Str) (source : MirrorSource) :
    Option (List (Str × Str)) :=
  match source.auth with
  | Option.none => Option.none
  | Option.some auth =>
    if auth.type = AuthType.none then Option.none
    else
      let headers : List (Str × Str) :=
        match auth.type with
        | AuthType.bearer =>
          match auth.token with
          | Option.some t =>
            if t ≠ [] then
              [("Authorization".toList, "Bearer ".toList ++ resolveEnvVar env t)]
            else []
          | Option.none => []
        | AuthType.basic =>
          match auth.username, auth.password with
          | Option.some u, Option.some p =>
            if u ≠ [] ∧ p ≠ [] then
              [("Authorization".toList,
                "Basic ".toList ++ base64Encode (utf8Encode
                  (resolveEnvVar env u ++ ':' :: resolveEnvVar env p)))]
            else []
          | _, _ => []
        | AuthType.none => []
      if headers ≠ [] then Option.some headers else Option.none

/-! ## The multi-source fallback downloader

The source-aware `PackageStore` documented in §4.4 of the specification
(the class carrying `downloadPackageWithFallback`) is not among the
repository's files — only its callers and the specification describe
it — so the fallback loop is modelled from the specification's words
and settled against that model. -/

/-- The cache check at the head of `downloadPackage`: the cached file
is used iff it exists and, when a checksum is supplied, verifies. -/
def cacheValid (hash : Bytes → Str) (disk : Option Bytes) (expected : Option Str) : Bool :=
  match disk, expected with
  | some content, some e => verifyChecksum hash content e
  | some _, none => true
  | none, _ => false

/-- Modelled from the spec: the per-source attempt loop of
`downloadPackageWithFallback` — attempt `downloadPackage` against each
source in order; the first success wins; each failure is swallowed;
after all sources fail a single aggregate error is raised.  Returns the
sources actually attempted, in order, with the outcome. -/
def fallbackLoop (attempt : MirrorSource → Except Unit Str) :
    List MirrorSource → List MirrorSource × Except Unit Str
  | [] => ([], Except.error ())
  | s :: rest =>
    match attempt s with
    | Except.ok p => ([s], Except.ok p)
    | Except.error _ =>
      let r := fallbackLoop attempt rest
      (s :: r.1, r.2)

/-- Modelled from the spec: `downloadPackageWithFallback(owner, name,
version, expectedChecksum?)` — check the cache first with the same
logic as `downloadPackage`; a valid cached artifact is returned without
attempting any source; otherwise iterate
`SourceManager.listEnabledSources()` in priority order. -/
def downloadPackageWithFallback (hash : Bytes → Str) (disk : Option Bytes)
    (expected : Option Str) (cachedPath : Str) (sources : List MirrorSource)
    (attempt : MirrorSource → Except Unit Str) :
    List MirrorSource × Except Unit Str :=
  if cacheValid hash disk expected then ([], Except.ok cachedPath)
  else fallbackLoop attempt (listEnabledSources sources)

/-! ## Reading a package file from a source index (index-manager.ts) -/

/-- Outcome of reading a package's JSONL index file from disk. -/
inductive ReadOutcome (α : Type) where
  | absent
  | parseError
  | ok (value : α)
deriving DecidableEq

/-- `PackageEntry` from types.ts (one JSONL line). -/
structure PackageEntry where
  name : Str
  version : Str
  checksum : Str
  deps : List (Str × Str)
  yanked : Bool
deriving DecidableEq

/-- `IndexManager.getPackageFromSource` over the read outcome of the
package's metadata file.  An absent file yields `null`; a file that
exists but fails to parse is caught (`try`/`catch` around
`fs.readJsonl`), logged and also yields `null`; a parsed file yields
the metadata.  The `Except` wrapper makes thrown errors expressible in
the result type: the function never returns `Except.error`. -/
def getPackageFromSource (username packageName : Str)
    (file : ReadOutcome (List PackageEntry)) :
    Except Unit (Option PackageMetadata) :=
  match file with
  | ReadOutcome.absent => Except.ok Option.none
  | ReadOutcome.parseError => Except.ok Option.none
  | ReadOutcome.ok entries =>
    Except.ok (Option.some
      { username := username, name := packageName,
        versions := entries.map (fun e =>
          { version := e.version, checksum := e.checksum,
            deps := e.deps, yanked := e.yanked }) })

/-! ## Concrete fixtures used by the examples -/

/-- Index `{a/x, a/y, b/z}` where `b/z` depends on `a/x` (the claim's
resolution example). -/
def exMetaAX : PackageMetadata := ⟨['a'], ['x'], [⟨['1'], ['c', '1'], [], false⟩]⟩

def exMetaAY : PackageMetadata := ⟨['a'], ['y'], [⟨['1'], ['c', '2'], [], false⟩]⟩

def exMetaBZ : PackageMetadata :=
  ⟨['b'], ['z'], [⟨['1'], ['c', '3'], [(['a', '/', 'x'], ['1'])], false⟩]⟩

def exIndex : Index :=
  [((['a'], ['x']), exMetaAX), ((['a'], ['y']), exMetaAY), ((['b'], ['z']), exMetaBZ)]

/-- Cyclic dependency graph `a/p1 -> a/p2 -> a/p1`. -/
def cycMetaP1 : PackageMetadata :=
  ⟨['a'], ['p', '1'], [⟨['1'], ['c'], [(['a', '/', 'p', '2'], ['1'])], false⟩]⟩

def cycMetaP2 : PackageMetadata :=
  ⟨['a'], ['p', '2'], [⟨['1'], ['c'], [(['a', '/', 'p', '1'], ['1'])], false⟩]⟩

def cycIndex : Index :=
  [((['a'], ['p', '1']), cycMetaP1), ((['a'], ['p', '2']), cycMetaP2)]

/-- A package with two non-yanked versions, of which only version `1`
is cached on disk. -/
def c2Meta : PackageMetadata :=
  ⟨['a'], ['x'], [⟨['1'], ['c', '1'], [], false⟩, ⟨['2'], ['c', '2'], [], false⟩]⟩

def c2Index : Index := [((['a'], ['x']), c2Meta)]

/-- `hasPackage`: only `a/x` at version `1` exists in the cache. -/
def c2HasPkg : PkgKey → Str → Bool :=
  fun k v => decide (k = (['a'], ['x']) ∧ v = ['1'])

/-- A package whose non-yanked versions are 1.2 and 1.10 and whose 2.0
is yanked: the numeric component comparison makes 1.10 the latest. -/
def c8Meta : PackageMetadata :=
  ⟨['a'], ['v'],
   [⟨['1', '.', '2'], ['c'], [], false⟩,
    ⟨['1', '.', '1', '0'], ['c'], [], false⟩,
    ⟨['2', '.', '0'], ['c'], [], true⟩]⟩

/-- A package all of whose versions are yanked. -/
def c8MetaYanked : PackageMetadata :=
  ⟨['a'], ['w'], [⟨['1'], ['c'], [], true⟩, ⟨['2'], ['c'], [], true⟩]⟩

/-- The skip-map invariant carried through the worklist loop: every
recorded skipped dependency matches none of the original patterns and
is not in the result set. -/
def SkipInv (patterns packages : List Str) (skipped : List (Str × List Str)) : Prop :=
  ∀ kv ∈ skipped, (∀ p ∈ patterns, matchGlob kv.1 p = false) ∧ kv.1 ∉ packages

/-! ## Part B: lemmas and claim theorems -/

theorem starScan_of_k {k : Str → Bool} : ∀ {s}, k s = true → starScan k s = true := by
  intro s h
  cases s with
  | nil => simpa [starScan] using h
  | cons x xs => simp [starScan, h]

theorem starScan_sound {ps : List GTok}
    (ih : ∀ s, globMatch ps s = true → GlobMatches ps s) :
    ∀ s, starScan (globMatch ps) s = true → GlobMatches (GTok.star :: ps) s := by
  intro s
  induction s with
  | nil =>
    intro h
    exact GlobMatches.star_skip (ih [] (by simpa [starScan] using h))
  | cons x xs ihs =>
    intro h
    simp only [starScan, Bool.or_eq_true, Bool.and_eq_true, Bool.not_eq_true'] at h
    rcases h with h | ⟨hx, h⟩
    · exact GlobMatches.star_skip (ih _ h)
    · exact GlobMatches.star_take hx (ihs h)

theorem globMatch_sound : ∀ ps s, globMatch ps s = true → GlobMatches ps s := by
  intro ps
  induction ps with
  | nil =>
    intro s h
    cases s with
    | nil => exact GlobMatches.nil
    | cons x xs => simp [globMatch] at h
  | cons t ps ih =>
    intro s h
    cases t with
    | lit c =>
      cases s with
      | nil => simp [globMatch] at h
      | cons x xs =>
        simp only [globMatch, Bool.and_eq_true, decide_eq_true_eq] at h
        obtain ⟨rfl, h2⟩ := h
        exact GlobMatches.lit (ih xs h2)
    | anyc =>
      cases s with
      | nil => simp [globMatch] at h
      | cons x xs =>
        simp only [globMatch, Bool.and_eq_true, Bool.not_eq_true'] at h
        exact GlobMatches.anyc h.1 (ih xs h.2)
    | star =>
      simp only [globMatch] at h
      exact starScan_sound ih s h

theorem globMatch_complete : ∀ {ps s}, GlobMatches ps s → globMatch ps s = true := by
  intro ps s h
  induction h with
  | nil => rfl
  | lit _ ih => simp [globMatch, ih]
  | anyc hx _ ih => simp [globMatch, hx, ih]
  | star_skip _ ih =>
    simp only [globMatch]
    exact starScan_of_k ih
  | @star_take x ps xs hx _ ih =>
    simp only [globMatch] at ih ⊢
    simp [starScan, hx, ih]

/-- Uniform head/tail view of the comparison loop (a missing component
reads as `0`). -/
theorem cmpComponents_eq (as bs : List Int) :
    cmpComponents as bs =
      if as.headD 0 ≠ bs.headD 0 then as.headD 0 - bs.headD 0
      else cmpComponents as.tail bs.tail := by
  match as, bs with
  | [], [] => simp [cmpComponents, cmpRight]
  | [], b :: bs => simp [cmpComponents, cmpRight]
  | a :: as, [] =>
    cases as with
    | nil => simp [cmpComponents, cmpLeft, cmpRight]
    | cons a2 as2 => simp [cmpComponents, cmpLeft]
  | a :: as, b :: bs => simp [cmpComponents]

theorem cmpComponents_self (as : List Int) : cmpComponents as as = 0 := by
  induction as with
  | nil => simp [cmpComponents, cmpRight]
  | cons a as ih => simp [cmpComponents, ih]

theorem cmpComponents_neg : ∀ as bs : List Int, cmpComponents bs as = -cmpComponents as bs := by
  have key : ∀ n, ∀ as bs : List Int, as.length + bs.length = n →
      cmpComponents bs as = -cmpComponents as bs := by
    intro n
    induction n using Nat.strong_induction_on with
    | _ n ih =>
      intro as bs hn
      by_cases hall : as = [] ∧ bs = []
      · obtain ⟨rfl, rfl⟩ := hall
        simp [cmpComponents, cmpRight]
      · have hpos : 0 < as.length + bs.length := by
          rcases as with _ | ⟨a, as⟩
          · rcases bs with _ | ⟨b, bs⟩
            · exact absurd ⟨rfl, rfl⟩ hall
            · simp
          · simp
        rw [cmpComponents_eq, cmpComponents_eq as bs]
        set ha := as.headD 0 with hha
        set hb := bs.headD 0 with hhb
        by_cases e : ha = hb
        · rw [if_neg (by omega), if_neg (by omega)]
          refine ih (as.tail.length + bs.tail.length) ?_ _ _ rfl
          rw [List.length_tail, List.length_tail]
          omega
        · rw [if_pos (by omega), if_pos (by omega)]
          omega
  intro as bs
  exact key (as.length + bs.length) as bs rfl

/-- Transitivity of the non-positive side of the comparison loop. -/
theorem cmpComponents_trans :
    ∀ as bs cs : List Int, cmpComponents as bs ≤ 0 → cmpComponents bs cs ≤ 0 →
      cmpComponents as cs ≤ 0 := by
  have key : ∀ n, ∀ as bs cs : List Int, as.length + bs.length + cs.length = n →
      cmpComponents as bs ≤ 0 → cmpComponents bs cs ≤ 0 → cmpComponents as cs ≤ 0 := by
    intro n
    induction n using Nat.strong_induction_on with
    | _ n ih =>
      intro as bs cs hn h1 h2
      by_cases hall : as = [] ∧ bs = [] ∧ cs = []
      · obtain ⟨rfl, rfl, rfl⟩ := hall
        simp [cmpComponents, cmpRight]
      · have hpos : 0 < as.length + bs.length + cs.length := by
          rcases as with _ | ⟨a, as⟩
          · rcases bs with _ | ⟨b, bs⟩
            · rcases cs with _ | ⟨c, cs⟩
              · exact absurd ⟨rfl, rfl, rfl⟩ hall
              · simp
            · simp
          · simp
        rw [cmpComponents_eq] at h1 h2 ⊢
        set ha := as.headD 0 with hha
        set hb := bs.headD 0 with hhb
        set hc := cs.headD 0 with hhc
        by_cases e1 : ha = hb
        · by_cases e2 : hb = hc
          · rw [if_neg (by omega)] at h1
            rw [if_neg (by omega)] at h2
            rw [if_neg (by omega)]
            refine ih (as.tail.length + bs.tail.length + cs.tail.length) ?_ _ _ _ rfl h1 h2
            rw [List.length_tail, List.length_tail, List.length_tail]
            omega
          · rw [if_pos (by omega)] at h2
            rw [if_pos (by omega)]
            omega
        · by_cases e2 : hb = hc
          · rw [if_pos (by omega)] at h1
            rw [if_pos (by omega)]
            omega
          · rw [if_pos (by omega)] at h1
            rw [if_pos (by omega)] at h2
            by_cases e3 : ha = hc
            · rw [if_neg (by omega)]
              omega
            · rw [if_pos (by omega)]
              omega
  intro as bs cs
  exact key (as.length + bs.length + cs.length) as bs cs rfl

theorem jsSortBy_perm {α : Type} (c : α → α → Int) (l : List α) :
    List.Perm (jsSortBy c l) l :=
  List.perm_insertionSort _ l

theorem jsSortBy_sorted {α : Type} (c : α → α → Int)
    (hneg : ∀ a b, c b a = -c a b)
    (htrans : ∀ a b d, c a b ≤ 0 → c b d ≤ 0 → c a d ≤ 0) (l : List α) :
    List.Pairwise (fun a b => c a b ≤ 0) (jsSortBy c l) := by
  haveI : IsTotal α (fun a b => c a b ≤ 0) := ⟨fun a b => by have := hneg a b; omega⟩
  haveI : IsTrans α (fun a b => c a b ≤ 0) := ⟨fun a b d h1 h2 => htrans a b d h1 h2⟩
  exact List.sorted_insertionSort (fun a b => c a b ≤ 0) l

/-- The version-selection comparator is antisymmetric in the sense of
`compareVersions`. -/
theorem compareVersions_neg (a b : Str) : compareVersions b a = -compareVersions a b :=
  cmpComponents_neg _ _

theorem compareVersions_self (a : Str) : compareVersions a a = 0 :=
  cmpComponents_self _

theorem compareVersions_trans {a b c : Str} (h1 : compareVersions a b ≤ 0)
    (h2 : compareVersions b c ≤ 0) : compareVersions a c ≤ 0 :=
  cmpComponents_trans _ _ _ h1 h2

/-- What `getLatestVersion` returns is a non-yanked version of the
package and a maximum among the non-yanked versions under
`compareVersions`. -/
theorem getLatestVersion_spec (m : PackageMetadata) (v : PackageVersion)
    (h : getLatestVersion m = some v) :
    v ∈ m.versions ∧ v.yanked = false ∧
      ∀ w ∈ m.versions, w.yanked = false →
        compareVersions w.version v.version ≤ 0 := by
  unfold getLatestVersion at h
  set c : PackageVersion → PackageVersion → Int :=
    fun a b => compareVersions b.version a.version with hc
  set vs := m.versions.filter (fun v => !v.yanked) with hvs
  have hperm := jsSortBy_perm c vs
  have hsorted := jsSortBy_sorted c
    (fun a b => compareVersions_neg _ _)
    (fun a b d h1 h2 => compareVersions_trans h2 h1) vs
  obtain ⟨t, ht⟩ : ∃ t, jsSortBy c vs = v :: t := by
    cases hj : jsSortBy c vs with
    | nil => rw [hj] at h; simp at h
    | cons x t => rw [hj] at h; simp at h; exact ⟨t, by rw [h]⟩
  have hvmem : v ∈ vs := hperm.mem_iff.mp (by rw [ht]; exact List.mem_cons_self _ _)
  have hv := List.mem_filter.mp hvmem
  refine ⟨hv.1, by simpa using hv.2, ?_⟩
  intro w hw hwy
  have hwvs : w ∈ vs := List.mem_filter.mpr ⟨hw, by simp [hwy]⟩
  have hwsort : w ∈ jsSortBy c vs := hperm.mem_iff.mpr hwvs
  rw [ht] at hwsort hsorted
  rcases List.mem_cons.mp hwsort with rfl | hwt
  · rw [compareVersions_self]
  · have := (List.pairwise_cons.mp hsorted).1 w hwt
    simpa [hc] using this

/-- When every version is yanked there is no latest version. -/
theorem getLatestVersion_none (m : PackageMetadata)
    (h : ∀ v ∈ m.versions, v.yanked = true) : getLatestVersion m = none := by
  unfold getLatestVersion
  have : m.versions.filter (fun v => !v.yanked) = [] := by
    rw [List.filter_eq_nil_iff]
    intro v hv
    simp [h v hv]
  rw [this]
  rfl

/-! ### The package store: checksum self-healing (C3) -/

/-- C3: with an expected checksum, a cached file failing verification
is deleted and the call proceeds exactly as a fresh download (one fetch
is performed); if the freshly downloaded bytes also fail verification,
no file remains at the target path and a checksum error is raised; a
cached file that verifies is returned immediately with no fetch; with
no expected checksum an existing file is returned as-is, unverified. -/
theorem downloadPackage_checksum_selfheal (hash : Bytes → Str) (content data : Bytes)
    (e : Str) (fetch : Except Nat Bytes) :
    (verifyChecksum hash content e = false →
      downloadPackage hash (some content) (some e) fetch = dlFetch hash (some e) fetch ∧
      (downloadPackage hash (some content) (some e) fetch).2.2 = 1) ∧
    (verifyChecksum hash content e = false → verifyChecksum hash data e = false →
      downloadPackage hash (some content) (some e) (Except.ok data)
        = (none, DLResult.checksumError, 1)) ∧
    (verifyChecksum hash content e = true →
      downloadPackage hash (some content) (some e) fetch = (some content, DLResult.ok, 0)) ∧
    downloadPackage hash (some content) none fetch = (some content, DLResult.ok, 0) := by
  refine ⟨fun hbad => ⟨by simp [downloadPackage, hbad], ?_⟩,
    fun hbad hbad2 => by simp [downloadPackage, dlFetch, hbad, hbad2],
    fun hgood => by simp [downloadPackage, hgood],
    by simp [downloadPackage]⟩
  simp only [downloadPackage, hbad, Bool.false_eq_true, if_false]
  cases fetch with
  | error st => simp [dlFetch]
  | ok d =>
    simp only [dlFetch]
    by_cases hv : verifyChecksum hash d e = true
    · simp [hv]
    · simp only [Bool.not_eq_true] at hv
      simp [hv]

/-- C3 witness: concrete run in which the cached file and the fresh
bytes both fail verification — the result is `checksumError` with no
file on disk and exactly one fetch. -/
theorem downloadPackage_checksum_selfheal_witness :
    verifyChecksum (fun _ => ['a']) [0] ['b'] = false ∧
    verifyChecksum (fun _ => ['a']) [1] ['b'] = false ∧
    downloadPackage (fun _ => ['a']) (some [0]) (some ['b']) (Except.ok [1])
      = (none, DLResult.checksumError, 1) :=
  ⟨by decide, by decide,
    (downloadPackage_checksum_selfheal (fun _ => ['a']) [0] [1] ['b']
      (Except.ok [1])).2.1 (by decide) (by decide)⟩

/-! ### Glob matching (C4) -/

/-- C4 counterexample.  Two divergences from the claim's wording:
(1) the claim asserts `matchGlob("a/bc/d", "a/*")` is `false`, but the
translated regex `^a/.*$` lets `.*` cross the second `/`, so the code
answers `true`; (2) the claim reads `?` as matching *exactly one
character*, but the regex `.` (no `s` flag) does not match a line
terminator, so on id `"a\nb"` and pattern `"a?b"` the code answers
`false` while the claimed semantics (`specGlobMatch`, built from the
claim's words) answers `true`. -/
theorem matchGlob_counterexample :
    matchGlob ['a', '/', 'b', 'c', '/', 'd'] ['a', '/', '*'] = true ∧
    matchGlob ['a', '\n', 'b'] ['a', '?', 'b'] = false ∧
    specGlobMatch (parseGlob ['a', '?', 'b']) ['a', '\n', 'b'] = true := by
  decide

/-- C4 (amended): `matchGlob` translates `*` to any run of
non-line-terminator characters (including the empty run, and including
`/`, so `"a/bc/d"` *does* match `"a/*"`), `?` to exactly one
non-line-terminator character, every other pattern character to itself
(all other regex metacharacters are escaped), and anchors the match to
the whole id — `GlobMatches` is that declarative semantics; the claim's
positive example holds. -/
theorem matchGlob_glob_semantics :
    (∀ s p : Str, matchGlob s p = true ↔ GlobMatches (parseGlob p) s) ∧
    matchGlob ['a', '/', 'b'] ['a', '/', '*'] = true ∧
    matchGlob ['a', '/', 'b', 'c', '/', 'd'] ['a', '/', '*'] = true :=
  ⟨fun s p => ⟨globMatch_sound _ _, globMatch_complete⟩, by decide, by decide⟩

/-! ### Reading a package from a source index (C5) -/

/-- C5 counterexample: a metadata file that exists but fails to parse
does **not** produce a read-failure error distinct from not-found — the
`catch` block logs and returns `null`, the same observable result as an
absent file. -/
theorem getPackageFromSource_parseError_counterexample :
    getPackageFromSource ['a'] ['x'] ReadOutcome.parseError = Except.ok none ∧
    getPackageFromSource ['a'] ['x'] ReadOutcome.parseError =
      getPackageFromSource ['a'] ['x'] ReadOutcome.absent :=
  ⟨rfl, rfl⟩

/-- C5 (amended): an absent metadata file yields `null` and not an
error; a file that exists but fails to parse is caught and logged and
also yields `null`, indistinguishable from not-found in the return
value; the call never raises. -/
theorem getPackageFromSource_null_semantics (username packageName : Str)
    (file : ReadOutcome (List PackageEntry)) :
    getPackageFromSource username packageName ReadOutcome.absent = Except.ok none ∧
    getPackageFromSource username packageName ReadOutcome.parseError = Except.ok none ∧
    ∃ r, getPackageFromSource username packageName file = Except.ok r := by
  refine ⟨rfl, rfl, ?_⟩
  cases file <;> exact ⟨_, rfl⟩

/-! ### The multi-source fallback downloader (C1, modelled from the spec) -/

theorem fallbackLoop_first_success (attempt : MirrorSource → Except Unit Str) :
    ∀ (pre : List MirrorSource) (s : MirrorSource) (post : List MirrorSource) (p : Str),
    (∀ t ∈ pre, attempt t = Except.error ()) → attempt s = Except.ok p →
    fallbackLoop attempt (pre ++ s :: post) = (pre ++ [s], Except.ok p) := by
  intro pre
  induction pre with
  | nil =>
    intro s post p _ hs
    simp [fallbackLoop, hs]
  | cons t pre ih =>
    intro s post p hpre hs
    have ht := hpre t (List.mem_cons_self _ _)
    simp [fallbackLoop, ht,
      ih s post p (fun u hu => hpre u (List.mem_cons_of_mem _ hu)) hs]

theorem fallbackLoop_all_fail (attempt : MirrorSource → Except Unit Str) :
    ∀ l : List MirrorSource, (∀ t ∈ l, attempt t = Except.error ()) →
    fallbackLoop attempt l = (l, Except.error ()) := by
  intro l
  induction l with
  | nil => intro _; rfl
  | cons t rest ih =>
    intro h
    have ht := h t (List.mem_cons_self _ _)
    simp [fallbackLoop, ht, ih (fun u hu => h u (List.mem_cons_of_mem _ hu))]

/-- C1 (spec-modelled): `downloadPackageWithFallback` returns a valid
cached artifact without attempting any source; otherwise it walks
`listEnabledSources()` in order — the first source whose attempt
succeeds wins and no later source is attempted (the attempted list is
exactly the failing prefix plus the winner); when every enabled source
fails, one aggregate error is raised after attempting them all.  In the
claim's scenario — `internal` at priority 10 holding the package and
`public` at priority 100 — the call succeeds via `internal` and never
contacts `public`, whatever `public` would have answered. -/
theorem downloadPackageWithFallback_spec (hash : Bytes → Str) (disk : Option Bytes)
    (expected : Option Str) (cachedPath : Str) (sources : List MirrorSource)
    (attempt : MirrorSource → Except Unit Str) :
    (cacheValid hash disk expected = true →
      downloadPackageWithFallback hash disk expected cachedPath sources attempt
        = ([], Except.ok cachedPath)) ∧
    (cacheValid hash disk expected = false →
      ∀ (pre : List MirrorSource) (s : MirrorSource) (post : List MirrorSource) (p : Str),
        listEnabledSources sources = pre ++ s :: post →
        (∀ t ∈ pre, attempt t = Except.error ()) →
        attempt s = Except.ok p →
        downloadPackageWithFallback hash disk expected cachedPath sources attempt
          = (pre ++ [s], Except.ok p)) ∧
    (cacheValid hash disk expected = false →
      (∀ t ∈ listEnabledSources sources, attempt t = Except.error ()) →
      downloadPackageWithFallback hash disk expected cachedPath sources attempt
        = (listEnabledSources sources, Except.error ())) ∧
    (∀ (g : MirrorSource → Except Unit Str) (p : Str),
      g ⟨"internal".toList, true, some 10, none⟩ = Except.ok p →
      downloadPackageWithFallback hash none expected cachedPath
        [⟨"internal".toList, true, some 10, none⟩,
         ⟨"public".toList, true, some 100, none⟩] g
        = ([⟨"internal".toList, true, some 10, none⟩], Except.ok p)) := by
  refine ⟨fun hc => by simp [downloadPackageWithFallback, hc], ?_, ?_, ?_⟩
  · intro hc pre s post p hl hpre hs
    simp only [downloadPackageWithFallback, hc, Bool.false_eq_true, if_false, hl]
    exact fallbackLoop_first_success attempt pre s post p hpre hs
  · intro hc hall
    simp only [downloadPackageWithFallback, hc, Bool.false_eq_true, if_false]
    exact fallbackLoop_all_fail attempt _ hall
  · intro g p hg
    have hcv : cacheValid hash none expected = false := by cases expected <;> rfl
    simp only [downloadPackageWithFallback, hcv, Bool.false_eq_true, if_false]
    have hl : listEnabledSources
        [⟨"internal".toList, true, some 10, none⟩,
         ⟨"public".toList, true, some 100, none⟩]
        = [⟨"internal".toList, true, some 10, none⟩,
           ⟨"public".toList, true, some 100, none⟩] := by decide
    rw [hl]
    exact fallbackLoop_first_success g []
      ⟨"internal".toList, true, some 10, none⟩
      [⟨"public".toList, true, some 100, none⟩] p (by simp) hg

/-- C1 witness: the claim's scenario run concretely — `internal` at
priority 10 answers, `public` at priority 100 is unreachable; the call
succeeds via `internal` and the attempted-source list excludes
`public`. -/
theorem downloadPackageWithFallback_witness :
    downloadPackageWithFallback (fun _ => []) none none "cp".toList
      [⟨"internal".toList, true, some 10, none⟩,
       ⟨"public".toList, true, some 100, none⟩]
      (fun s => if s.name = "internal".toList then Except.ok "path".toList
                else Except.error ())
      = ([⟨"internal".toList, true, some 10, none⟩], Except.ok "path".toList) :=
  (downloadPackageWithFallback_spec (fun _ => []) none none "cp".toList
    [⟨"internal".toList, true, some 10, none⟩,
     ⟨"public".toList, true, some 100, none⟩]
    (fun s => if s.name = "internal".toList then Except.ok "path".toList
              else Except.error ())).2.2.2
    (fun s => if s.name = "internal".toList then Except.ok "path".toList
              else Except.error ())
    "path".toList (by rfl)


/-! ### Step equations of the worklist loop -/

theorem resolveLoop_nil (index : Index) (patterns : List Str)
    (packages : List Str) (skipped : List (Str × List Str)) (processed : List Str) :
    resolveLoop index patterns packages skipped [] processed = (packages, skipped) := by
  rw [resolveLoop]

theorem resolveLoop_mem (index : Index) (patterns : List Str)
    (packages : List Str) (skipped : List (Str × List Str))
    (pkgName : Str) (rest processed : List Str) (h : pkgName ∈ processed) :
    resolveLoop index patterns packages skipped (pkgName :: rest) processed =
      resolveLoop index patterns packages skipped rest processed := by
  rw [resolveLoop]
  rw [dif_pos h]

theorem resolveLoop_parse_none (index : Index) (patterns : List Str)
    (packages : List Str) (skipped : List (Str × List Str))
    (pkgName : Str) (rest processed : List Str) (h : pkgName ∉ processed)
    (hp : parsePackageId pkgName = none) :
    resolveLoop index patterns packages skipped (pkgName :: rest) processed =
      resolveLoop index patterns packages skipped rest (pkgName :: processed) := by
  rw [resolveLoop]
  rw [dif_neg h]
  split
  · rfl
  · rename_i k heq
    simp [hp] at heq

theorem resolveLoop_meta_none (index : Index) (patterns : List Str)
    (packages : List Str) (skipped : List (Str × List Str))
    (pkgName : Str) (rest processed : List Str) (h : pkgName ∉ processed)
    (k : PkgKey) (hp : parsePackageId pkgName = some k)
    (hm : lookupMeta index k = none) :
    resolveLoop index patterns packages skipped (pkgName :: rest) processed =
      resolveLoop index patterns packages skipped rest (pkgName :: processed) := by
  rw [resolveLoop]
  rw [dif_neg h]
  split
  · rename_i heq
    simp [hp] at heq
  · rename_i k2 heq
    rw [hp] at heq
    injection heq with heq
    subst heq
    split
    · rfl
    · rename_i meta heq2
      simp [hm] at heq2

theorem resolveLoop_latest_none (index : Index) (patterns : List Str)
    (packages : List Str) (skipped : List (Str × List Str))
    (pkgName : Str) (rest processed : List Str) (h : pkgName ∉ processed)
    (k : PkgKey) (hp : parsePackageId pkgName = some k)
    (meta : PackageMetadata) (hm : lookupMeta index k = some meta)
    (hl : getLatestVersion meta = none) :
    resolveLoop index patterns packages skipped (pkgName :: rest) processed =
      resolveLoop index patterns packages skipped rest (pkgName :: processed) := by
  rw [resolveLoop]
  rw [dif_neg h]
  split
  · rename_i heq
    simp [hp] at heq
  · rename_i k2 heq
    rw [hp] at heq
    injection heq with heq
    subst heq
    split
    · rename_i heq2
      simp [hm] at heq2
    · rename_i meta2 heq2
      rw [hm] at heq2
      injection heq2 with heq2
      subst heq2
      rw [hl]

theorem resolveLoop_step (index : Index) (patterns : List Str)
    (packages : List Str) (skipped : List (Str × List Str))
    (pkgName : Str) (rest processed : List Str) (h : pkgName ∉ processed)
    (k : PkgKey) (hp : parsePackageId pkgName = some k)
    (meta : PackageMetadata) (hm : lookupMeta index k = some meta)
    (v : PackageVersion) (hl : getLatestVersion meta = some v) :
    resolveLoop index patterns packages skipped (pkgName :: rest) processed =
      resolveLoop index patterns
        (stepDeps patterns pkgName (v.deps.map Prod.fst) packages skipped rest).1
        (stepDeps patterns pkgName (v.deps.map Prod.fst) packages skipped rest).2.1
        (stepDeps patterns pkgName (v.deps.map Prod.fst) packages skipped rest).2.2
        (pkgName :: processed) := by
  rw [resolveLoop]
  rw [dif_neg h]
  split
  · rename_i heq
    simp [hp] at heq
  · rename_i k2 heq
    rw [hp] at heq
    injection heq with heq
    subst heq
    split
    · rename_i heq2
      simp [hm] at heq2
    · rename_i meta2 heq2
      rw [hm] at heq2
      injection heq2 with heq2
      subst heq2
      rw [hl]


/-! ### Resolver invariants (C6, C7) -/

theorem skipAdd_key_prop (P : Str → Prop) (dep requirer : Str) (hdep : P dep) :
    ∀ skipped : List (Str × List Str), (∀ kv ∈ skipped, P kv.1) →
    ∀ kv ∈ skipAdd skipped dep requirer, P kv.1 := by
  intro skipped
  induction skipped with
  | nil =>
    intro _ kv hkv
    simp only [skipAdd, List.mem_singleton] at hkv
    subst hkv
    exact hdep
  | cons e rest ih =>
    intro hall kv hkv
    obtain ⟨ek, ers⟩ := e
    simp only [skipAdd] at hkv
    by_cases hk : ek = dep
    · rw [if_pos hk] at hkv
      rcases List.mem_cons.mp hkv with rfl | hkv
      · exact hall (ek, ers) (List.mem_cons_self _ _)
      · exact hall kv (List.mem_cons_of_mem _ hkv)
    · rw [if_neg hk] at hkv
      rcases List.mem_cons.mp hkv with rfl | hkv
      · exact hall (ek, ers) (List.mem_cons_self _ _)
      · exact ih (fun u hu => hall u (List.mem_cons_of_mem _ hu)) kv hkv

theorem stepDeps_inv (patterns : List Str) (pkgName : Str) :
    ∀ (deps packages : List Str) (skipped : List (Str × List Str)) (work : List Str),
    SkipInv patterns packages skipped →
    SkipInv patterns (stepDeps patterns pkgName deps packages skipped work).1
      (stepDeps patterns pkgName deps packages skipped work).2.1 := by
  intro deps
  induction deps with
  | nil => intro packages skipped work h; simpa [stepDeps] using h
  | cons dep rest ih =>
    intro packages skipped work h
    by_cases hmem : dep ∈ packages
    · simp only [stepDeps, if_pos hmem]
      exact ih _ _ _ h
    · by_cases hmatch : patterns.any (fun p => matchGlob dep p) = true
      · simp only [stepDeps, if_neg hmem, if_pos hmatch]
        apply ih
        intro kv hkv
        obtain ⟨h1, h2⟩ := h kv hkv
        refine ⟨h1, ?_⟩
        intro hc
        rcases List.mem_append.mp hc with hc | hc
        · exact h2 hc
        · rw [List.mem_singleton] at hc
          obtain ⟨p, hp, hm⟩ := List.any_eq_true.mp hmatch
          rw [← hc] at hm
          rw [h1 p hp] at hm
          cases hm
      · simp only [stepDeps, if_neg hmem, if_neg hmatch]
        apply ih
        intro kv hkv
        refine skipAdd_key_prop
          (fun x => (∀ p ∈ patterns, matchGlob x p = false) ∧ x ∉ packages)
          dep pkgName ⟨?_, hmem⟩ skipped (fun u hu => h u hu) kv hkv
        intro p hp
        have hfalse : patterns.any (fun p => matchGlob dep p) = false :=
          Bool.not_eq_true _ ▸ (by simpa using hmatch)
        simpa using List.any_eq_false.mp hfalse p hp

theorem addUnique_nodup {α : Type} [DecidableEq α] (l : List α) (x : α)
    (h : l.Nodup) : (addUnique l x).Nodup := by
  unfold addUnique
  by_cases hx : x ∈ l
  · simpa [hx]
  · simp [hx, List.nodup_append, h]

theorem dedup_nodup {α : Type} [DecidableEq α] (l : List α) : (dedup l).Nodup := by
  have key : ∀ (l acc : List α), acc.Nodup → (l.foldl addUnique acc).Nodup := by
    intro l
    induction l with
    | nil => intro acc h; simpa using h
    | cons x l ih =>
      intro acc h
      exact ih _ (addUnique_nodup acc x h)
  exact key l [] List.nodup_nil

theorem stepDeps_nodup (patterns : List Str) (pkgName : Str) :
    ∀ (deps packages : List Str) (skipped : List (Str × List Str)) (work : List Str),
    packages.Nodup → (stepDeps patterns pkgName deps packages skipped work).1.Nodup := by
  intro deps
  induction deps with
  | nil => intro packages skipped work h; simpa [stepDeps] using h
  | cons dep rest ih =>
    intro packages skipped work h
    by_cases hmem : dep ∈ packages
    · simp only [stepDeps, if_pos hmem]
      exact ih _ _ _ h
    · by_cases hmatch : patterns.any (fun p => matchGlob dep p) = true
      · simp only [stepDeps, if_neg hmem, if_pos hmatch]
        apply ih
        simp [List.nodup_append, h, hmem]
      · simp only [stepDeps, if_neg hmem, if_neg hmatch]
        exact ih _ _ _ h

theorem resolveLoop_inv (index : Index) (patterns : List Str) :
    ∀ (packages : List Str) (skipped : List (Str × List Str))
      (toProcess processed : List Str),
    SkipInv patterns packages skipped →
    SkipInv patterns (resolveLoop index patterns packages skipped toProcess processed).1
      (resolveLoop index patterns packages skipped toProcess processed).2 := by
  intro packages skipped toProcess processed
  induction packages, skipped, toProcess, processed using resolveLoop.induct index patterns with
  | case1 packages skipped processed =>
    intro h
    simpa [resolveLoop_nil] using h
  | case2 packages skipped processed pkgName rest hmem ih =>
    intro h
    rw [resolveLoop_mem index patterns packages skipped pkgName rest processed hmem]
    exact ih h
  | case3 packages skipped processed pkgName rest hmem hp ih =>
    intro h
    rw [resolveLoop_parse_none index patterns packages skipped pkgName rest processed hmem hp]
    exact ih h
  | case4 packages skipped processed pkgName rest hmem k hp hm ih =>
    intro h
    rw [resolveLoop_meta_none index patterns packages skipped pkgName rest processed hmem k hp hm]
    exact ih h
  | case5 packages skipped processed pkgName rest hmem k hp meta hm hl ih =>
    intro h
    rw [resolveLoop_latest_none index patterns packages skipped pkgName rest processed
      hmem k hp meta hm hl]
    exact ih h
  | case6 packages skipped processed pkgName rest hmem k hp meta hm v hl r ih =>
    intro h
    rw [resolveLoop_step index patterns packages skipped pkgName rest processed
      hmem k hp meta hm v hl]
    exact ih (stepDeps_inv patterns pkgName (v.deps.map Prod.fst) packages skipped rest h)

theorem resolveLoop_nodup (index : Index) (patterns : List Str) :
    ∀ (packages : List Str) (skipped : List (Str × List Str))
      (toProcess processed : List Str),
    packages.Nodup →
    (resolveLoop index patterns packages skipped toProcess processed).1.Nodup := by
  intro packages skipped toProcess processed
  induction packages, skipped, toProcess, processed using resolveLoop.induct index patterns with
  | case1 packages skipped processed =>
    intro h
    simpa [resolveLoop_nil] using h
  | case2 packages skipped processed pkgName rest hmem ih =>
    intro h
    rw [resolveLoop_mem index patterns packages skipped pkgName rest processed hmem]
    exact ih h
  | case3 packages skipped processed pkgName rest hmem hp ih =>
    intro h
    rw [resolveLoop_parse_none index patterns packages skipped pkgName rest processed hmem hp]
    exact ih h
  | case4 packages skipped processed pkgName rest hmem k hp hm ih =>
    intro h
    rw [resolveLoop_meta_none index patterns packages skipped pkgName rest processed hmem k hp hm]
    exact ih h
  | case5 packages skipped processed pkgName rest hmem k hp meta hm hl ih =>
    intro h
    rw [resolveLoop_latest_none index patterns packages skipped pkgName rest processed
      hmem k hp meta hm hl]
    exact ih h
  | case6 packages skipped processed pkgName rest hmem k hp meta hm v hl r ih =>
    intro h
    rw [resolveLoop_step index patterns packages skipped pkgName rest processed
      hmem k hp meta hm v hl]
    exact ih (stepDeps_nodup patterns pkgName (v.deps.map Prod.fst) packages skipped rest h)


/-- C6: for every resolve call, `cached` is a subset of `packages`, and
every key of the `skipped` map is a dependency name that matches none
of the original selection patterns and does not appear in `packages`;
on the index `{a/x, a/y, b/z}` with `b/z` depending on `a/x`, resolving
patterns `["b/*"]` non-strict yields packages `{b/z}`, skipped
`{a/x ↦ [b/z]}` and nothing cached. -/
theorem resolve_invariants (index : Index) (hasPkg : PkgKey → Str → Bool)
    (patterns : List Str) (full strict : Bool) :
    (∀ x ∈ (resolve index hasPkg patterns full strict).cached,
      x ∈ (resolve index hasPkg patterns full strict).packages) ∧
    (∀ kv ∈ (resolve index hasPkg patterns full strict).skipped,
      (∀ p ∈ patterns, matchGlob kv.1 p = false) ∧
      kv.1 ∉ (resolve index hasPkg patterns full strict).packages) ∧
    resolve exIndex (fun _ _ => false) [['b', '/', '*']] false false =
      ⟨[['b', '/', 'z']], [(['a', '/', 'x'], [['b', '/', 'z']])], []⟩ := by
  refine ⟨?_, ?_, ?_⟩
  · intro x hx
    simp only [resolve] at hx ⊢
    exact (List.mem_filter.mp hx).1
  · intro kv hkv
    simp only [resolve] at hkv ⊢
    cases strict with
    | true => simp at hkv
    | false =>
      simp only [Bool.false_eq_true, if_false] at hkv ⊢
      exact resolveLoop_inv index patterns _ _ _ _
        (fun u hu => absurd hu (List.not_mem_nil u)) kv hkv
  · simp [resolve, resolveLoop, matchPatterns, listPackages, dedup, addUnique, stepDeps,
      skipAdd, lookupMeta, parsePackageId, splitOnChar, formatPackageId, getLatestVersion,
      jsSortBy, isPackageCached, matchGlob, globMatch, starScan, parseGlob, isLineTerm,
      compareVersions, versionParts, jsParseInt10, leadingNat, leadingNatAux, digitVal,
      isJsSpace, cmpComponents, exIndex, exMetaAX, exMetaAY, exMetaBZ]

/-- C6 witness: in the example resolution, `a/x` is a recorded skipped
dependency, matches no original pattern, and is not in the result
set. -/
theorem resolve_invariants_witness :
    (∀ p ∈ [['b', '/', '*']], matchGlob ['a', '/', 'x'] p = false) ∧
    ['a', '/', 'x'] ∉
      (resolve exIndex (fun _ _ => false) [['b', '/', '*']] false false).packages :=
  (resolve_invariants exIndex (fun _ _ => false) [['b', '/', '*']] false false).2.1
    (['a', '/', 'x'], [['b', '/', 'z']])
    (by rw [(resolve_invariants exIndex (fun _ _ => false)
        [['b', '/', '*']] false false).2.2]
        simp)

/-- C7: the transitive-closure loop is a total function (it is defined
by well-founded recursion on the number of index entries not yet in the
processed set, paired with the worklist length, so it terminates on
every dependency graph, cyclic ones included), every resolved package
appears exactly once in the result set, and the cyclic graph
`a/p1 -> a/p2 -> a/p1` resolves to exactly `{a/p1, a/p2}`, each counted
once. -/
theorem resolve_termination_nodup (index : Index) (hasPkg : PkgKey → Str → Bool)
    (patterns : List Str) (full strict : Bool) :
    (resolve index hasPkg patterns full strict).packages.Nodup ∧
    (resolve cycIndex (fun _ _ => false) [['a', '/', '*']] false false).packages =
      [['a', '/', 'p', '1'], ['a', '/', 'p', '2']] ∧
    ((resolve cycIndex (fun _ _ => false) [['a', '/', '*']] false false).packages.count
      ['a', '/', 'p', '1'] = 1 ∧
    (resolve cycIndex (fun _ _ => false) [['a', '/', '*']] false false).packages.count
      ['a', '/', 'p', '2'] = 1) := by
  have hex : (resolve cycIndex (fun _ _ => false) [['a', '/', '*']] false false).packages =
      [['a', '/', 'p', '1'], ['a', '/', 'p', '2']] := by
    simp [resolve, resolveLoop, matchPatterns, listPackages, dedup, addUnique, stepDeps,
      skipAdd, lookupMeta, parsePackageId, splitOnChar, formatPackageId, getLatestVersion,
      jsSortBy, isPackageCached, matchGlob, globMatch, starScan, parseGlob, isLineTerm,
      compareVersions, versionParts, jsParseInt10, leadingNat, leadingNatAux, digitVal,
      isJsSpace, cmpComponents, cycIndex, cycMetaP1, cycMetaP2]
  refine ⟨?_, hex, by rw [hex]; decide, by rw [hex]; decide⟩
  simp only [resolve]
  cases strict with
  | true => exact dedup_nodup _
  | false =>
    simp only [Bool.false_eq_true, if_false]
    exact resolveLoop_nodup index patterns _ _ _ _ (dedup_nodup _)

/-! ### The mirror download phase (C2) -/

/-- C2 counterexample: `a/x` has two non-yanked versions, `1` (cached)
and `2` (not cached); the resolver marks `a/x` cached because *some*
version is present, and `Registry.mirror` filters every cached package
out of `toDownload` — so no download is attempted at all and version
`2` is never fetched, contradicting the claim that the cached
annotation only suppresses warnings. -/
theorem mirror_skips_cached_counterexample :
    (resolve c2Index c2HasPkg [['a', '/', '*']] false false).packages = [['a', '/', 'x']] ∧
    (resolve c2Index c2HasPkg [['a', '/', '*']] false false).cached = [['a', '/', 'x']] ∧
    (⟨['2'], ['c', '2'], [], false⟩ : PackageVersion) ∈ c2Meta.versions ∧
    mirrorDownloads c2Index (resolve c2Index c2HasPkg [['a', '/', '*']] false false) = [] := by
  refine ⟨?_, ?_, by decide, ?_⟩ <;>
    simp [resolve, resolveLoop, matchPatterns, listPackages, dedup, addUnique, stepDeps,
      skipAdd, lookupMeta, parsePackageId, splitOnChar, formatPackageId, getLatestVersion,
      jsSortBy, isPackageCached, matchGlob, globMatch, starScan, parseGlob, isLineTerm,
      compareVersions, versionParts, jsParseInt10, leadingNat, leadingNatAux, digitVal,
      isJsSpace, cmpComponents, c2Index, c2Meta, c2HasPkg, mirrorDownloads]

/-- C2 (amended): after resolution completes, the mirror loop attempts
a download of exactly every non-yanked version of every resolved
package **not marked cached** (against the single resolved source);
packages carrying the cached annotation are filtered out of
`toDownload` entirely, so the annotation does affect which versions are
downloaded. -/
theorem mirrorDownloads_characterization (index : Index) (res : ResolveResult) :
    (∀ (pkgName : Str) (k : PkgKey) (meta : PackageMetadata) (ver : PackageVersion),
      pkgName ∈ res.packages → pkgName ∉ res.cached →
      parsePackageId pkgName = some k → lookupMeta index k = some meta →
      ver ∈ meta.versions → ver.yanked = false →
      (k, ver.version) ∈ mirrorDownloads index res) ∧
    (∀ kv ∈ mirrorDownloads index res,
      ∃ pkgName, pkgName ∈ res.packages ∧ pkgName ∉ res.cached ∧
        parsePackageId pkgName = some kv.1 ∧
        ∃ meta, lookupMeta index kv.1 = some meta ∧
          ∃ ver, ver ∈ meta.versions ∧ ver.yanked = false ∧ ver.version = kv.2) := by
  constructor
  · intro pkgName k meta ver h1 h2 h3 h4 h5 h6
    unfold mirrorDownloads
    apply List.mem_flatten.mpr
    refine ⟨(meta.versions.filter (fun v => !v.yanked)).map (fun v => (k, v.version)), ?_, ?_⟩
    · apply List.mem_map.mpr
      refine ⟨pkgName, List.mem_filter.mpr ⟨h1, by simp [h2]⟩, ?_⟩
      simp only [h3, h4]
    · apply List.mem_map.mpr
      exact ⟨ver, List.mem_filter.mpr ⟨h5, by simp [h6]⟩, rfl⟩
  · intro kv hkv
    unfold mirrorDownloads at hkv
    obtain ⟨inner, hinner, hkvin⟩ := List.mem_flatten.mp hkv
    obtain ⟨pkgName, hpkg, hfun⟩ := List.mem_map.mp hinner
    have hfm := List.mem_filter.mp hpkg
    subst hfun
    cases h3 : parsePackageId pkgName with
    | none => simp only [h3] at hkvin; simp at hkvin
    | some k =>
      cases h4 : lookupMeta index k with
      | none => simp only [h3, h4] at hkvin; simp at hkvin
      | some meta =>
        simp only [h3, h4] at hkvin
        obtain ⟨ver, hver, hkv2⟩ := List.mem_map.mp hkvin
        have hvf := List.mem_filter.mp hver
        subst hkv2
        refine ⟨pkgName, hfm.1, by simpa using hfm.2, h3, meta, h4, ver, hvf.1,
          by simpa using hvf.2, rfl⟩

/-- C2 witness: with nothing cached, version `1` of `a/x` is attempted
by the mirror loop. -/
theorem mirrorDownloads_characterization_witness :
    ((['a'], ['x']), ['1']) ∈
      mirrorDownloads c2Index (resolve c2Index (fun _ _ => false) [['a', '/', '*']] false false) := by
  apply (mirrorDownloads_characterization c2Index
    (resolve c2Index (fun _ _ => false) [['a', '/', '*']] false false)).1
    ['a', '/', 'x'] (['a'], ['x']) c2Meta ⟨['1'], ['c', '1'], [], false⟩
  · simp [resolve, resolveLoop, matchPatterns, listPackages, dedup, addUnique, stepDeps,
      skipAdd, lookupMeta, parsePackageId, splitOnChar, formatPackageId, getLatestVersion,
      jsSortBy, isPackageCached, matchGlob, globMatch, starScan, parseGlob, isLineTerm,
      compareVersions, versionParts, jsParseInt10, leadingNat, leadingNatAux, digitVal,
      isJsSpace, cmpComponents, c2Index, c2Meta]
  · simp [resolve, resolveLoop, matchPatterns, listPackages, dedup, addUnique, stepDeps,
      skipAdd, lookupMeta, parsePackageId, splitOnChar, formatPackageId, getLatestVersion,
      jsSortBy, isPackageCached, matchGlob, globMatch, starScan, parseGlob, isLineTerm,
      compareVersions, versionParts, jsParseInt10, leadingNat, leadingNatAux, digitVal,
      isJsSpace, cmpComponents, c2Index, c2Meta]
  · decide
  · decide
  · decide
  · rfl


/-! ### Latest-version selection (C8) -/

/-- C8: the "latest" version used for dependency traversal is obtained
by first removing all yanked versions and then taking a maximum under
`compareVersions` — the component-wise comparison of dot-separated
numeric components with missing components read as `0`, not full
semantic-versioning precedence; when every version is yanked there is
no latest version, and the worklist loop passes the package over
without exploring any dependency edge. -/
theorem getLatestVersion_max_nonyanked (m : PackageMetadata) :
    (∀ v, getLatestVersion m = some v →
      v ∈ m.versions ∧ v.yanked = false ∧
        ∀ w ∈ m.versions, w.yanked = false →
          compareVersions w.version v.version ≤ 0) ∧
    ((∀ v ∈ m.versions, v.yanked = true) → getLatestVersion m = none) ∧
    (∀ (index : Index) (patterns packages : List Str)
        (skipped : List (Str × List Str)) (pkgName : Str)
        (rest processed : List Str) (k : PkgKey),
      pkgName ∉ processed → parsePackageId pkgName = some k →
      lookupMeta index k = some m → getLatestVersion m = none →
      resolveLoop index patterns packages skipped (pkgName :: rest) processed =
        resolveLoop index patterns packages skipped rest (pkgName :: processed)) := by
  refine ⟨fun v h => getLatestVersion_spec m v h, getLatestVersion_none m, ?_⟩
  intro index patterns packages skipped pkgName rest processed k h hp hm hl
  exact resolveLoop_latest_none index patterns packages skipped pkgName rest processed
    h k hp m hm hl

/-- C8 witness: on versions `{1.2, 1.10, 2.0 (yanked)}` the selected
latest version is `1.10` (numeric comparison: 10 > 2, and the yanked
2.0 is excluded) and it is a member of the version list; a
fully-yanked package has no latest version. -/
theorem getLatestVersion_max_nonyanked_witness :
    (⟨['1', '.', '1', '0'], ['c'], [], false⟩ : PackageVersion) ∈ c8Meta.versions ∧
    getLatestVersion c8MetaYanked = none :=
  ⟨((getLatestVersion_max_nonyanked c8Meta).1
      ⟨['1', '.', '1', '0'], ['c'], [], false⟩ (by decide)).1,
   (getLatestVersion_max_nonyanked c8MetaYanked).2.1 (by decide)⟩

/-! ### Source priority ordering (C9) -/

theorem orderedInsert_filter_key {α : Type} (k : α → Int) (p : Int) (x : α) :
    ∀ l : List α,
    (List.orderedInsert (fun a b => k a - k b ≤ 0) x l).filter
        (fun y => decide (k y = p)) =
      if k x = p then x :: l.filter (fun y => decide (k y = p))
      else l.filter (fun y => decide (k y = p)) := by
  intro l
  induction l with
  | nil =>
    by_cases hx : k x = p <;> simp [List.orderedInsert, hx]
  | cons b l ih =>
    by_cases hr : k x - k b ≤ 0
    · simp only [List.orderedInsert, if_pos hr]
      by_cases hx : k x = p <;> by_cases hb : k b = p <;>
        simp [List.filter_cons, hx, hb]
    · simp only [List.orderedInsert, if_neg hr]
      have hlt : k b < k x := by omega
      rw [List.filter_cons, ih]
      by_cases hb : k b = p
      · have hx : ¬ k x = p := by omega
        simp [hb, hx, List.filter_cons]
      · by_cases hx : k x = p <;> simp [hb, hx, List.filter_cons]

theorem jsSortBy_filter_key {α : Type} (k : α → Int) (p : Int) :
    ∀ l : List α,
    (jsSortBy (fun a b => k a - k b) l).filter (fun y => decide (k y = p)) =
      l.filter (fun y => decide (k y = p)) := by
  intro l
  induction l with
  | nil => rfl
  | cons a l ih =>
    simp only [jsSortBy, List.insertionSort] at ih ⊢
    rw [orderedInsert_filter_key, ih]
    by_cases hp : k a = p
    · rw [if_pos hp]
      simp [List.filter_cons, hp]
    · rw [if_neg hp]
      simp [List.filter_cons, hp]

/-- C9: `listEnabledSources` returns exactly the enabled sources (a
permutation of the enabled sublist), sorted ascending by
`priority ?? 100`; sources of equal priority keep their declaration
order (for every priority value, the result's sublist of that priority
equals the enabled sources of that priority in declaration order), and
the claim's example `[b@50, a@50]` keeps the order `[b, a]`. -/
theorem listEnabledSources_ordering (sources : List MirrorSource) :
    List.Perm (listEnabledSources sources) (sources.filter (fun s => s.enabled)) ∧
    List.Pairwise (fun a b => a.priority.getD 100 ≤ b.priority.getD 100)
      (listEnabledSources sources) ∧
    (∀ p : Int,
      (listEnabledSources sources).filter
          (fun s => decide (s.priority.getD 100 = p)) =
        (sources.filter (fun s => s.enabled)).filter
          (fun s => decide (s.priority.getD 100 = p))) ∧
    listEnabledSources
        [⟨"b".toList, true, some 50, none⟩, ⟨"a".toList, true, some 50, none⟩] =
      [⟨"b".toList, true, some 50, none⟩, ⟨"a".toList, true, some 50, none⟩] := by
  refine ⟨jsSortBy_perm _ _, ?_, ?_, by decide⟩
  · have h := jsSortBy_sorted
      (fun a b : MirrorSource => a.priority.getD 100 - b.priority.getD 100)
      (fun a b => by
        show b.priority.getD 100 - a.priority.getD 100 =
          -(a.priority.getD 100 - b.priority.getD 100)
        omega)
      (fun a b d h1 h2 => by
        have h1x : a.priority.getD 100 - b.priority.getD 100 ≤ 0 := h1
        have h2x : b.priority.getD 100 - d.priority.getD 100 ≤ 0 := h2
        show a.priority.getD 100 - d.priority.getD 100 ≤ 0
        omega)
      (sources.filter (fun s => s.enabled))
    refine h.imp ?_
    intro a b hab
    have hx : a.priority.getD 100 - b.priority.getD 100 ≤ 0 := hab
    omega
  · intro p
    exact jsSortBy_filter_key (fun s : MirrorSource => s.priority.getD 100) p
      (sources.filter (fun s => s.enabled))

/-! ### Auth headers with unset environment variables (C10) -/

theorem takeWhile_append_close {v : Str} (h : '}' ∉ v) :
    (v ++ ['}']).takeWhile (· != '}') = v := by
  induction v with
  | nil => simp [List.takeWhile]
  | cons c cs ih =>
    have hc : c ≠ '}' := fun hc => h (hc ▸ List.mem_cons_self c cs)
    simp only [List.cons_append, List.takeWhile_cons]
    rw [if_pos (by simp [hc]), ih (fun hm => h (List.mem_cons_of_mem _ hm))]

theorem dropWhile_append_close {v : Str} (h : '}' ∉ v) :
    (v ++ ['}']).dropWhile (· != '}') = ['}'] := by
  induction v with
  | nil => simp [List.dropWhile]
  | cons c cs ih =>
    have hc : c ≠ '}' := fun hc => h (hc ▸ List.mem_cons_self c cs)
    simp only [List.cons_append, List.dropWhile_cons]
    rw [if_pos (by simp [hc])]
    exact ih (fun hm => h (List.mem_cons_of_mem _ hm))

/-- A credential field consisting of one `${VAR}` placeholder resolves
to the environment value, or to the empty string when the variable is
unset. -/
theorem resolveEnvVar_var (env : Str → Option Str) (v : Str)
    (hne : v ≠ []) (hnb : '}' ∉ v) :
    resolveEnvVar env ('$' :: '{' :: (v ++ ['}'])) = (env v).getD [] := by
  simp only [resolveEnvVar]
  rw [takeWhile_append_close hnb, dropWhile_append_close hnb]
  rw [dif_pos ⟨hne, by simp⟩]
  simp [resolveEnvVar]

/-- C10: a bearer source whose token field is a `${VAR}` placeholder
with `VAR` unset still emits `Authorization: Bearer ` with the empty
token substituted; a basic source whose username and password are
unset placeholders emits the base64 of `":"`-joined empty credentials
(`Og==`).  The header is emitted, not omitted, and no error occurs. -/
theorem getFetchOptions_unset_env (env : Str → Option Str) (name : Str)
    (pri : Option Int) (v1 v2 : Str) :
    (v1 ≠ [] → '}' ∉ v1 → env v1 = none →
      getFetchOptions env ⟨name, true, pri,
          some ⟨AuthType.bearer, some ('$' :: '{' :: (v1 ++ ['}'])), none, none⟩⟩ =
        some [("Authorization".toList, "Bearer ".toList)]) ∧
    (v1 ≠ [] → v2 ≠ [] → '}' ∉ v1 → '}' ∉ v2 → env v1 = none → env v2 = none →
      getFetchOptions env ⟨name, true, pri,
          some ⟨AuthType.basic, none, some ('$' :: '{' :: (v1 ++ ['}'])),
            some ('$' :: '{' :: (v2 ++ ['}']))⟩⟩ =
        some [("Authorization".toList, "Basic Og==".toList)]) := by
  constructor
  · intro h1 h2 h3
    have hres := resolveEnvVar_var env v1 h1 h2
    rw [h3] at hres
    simp [getFetchOptions, hres]
  · intro h1 h2 h3 h4 h5 h6
    have hres1 := resolveEnvVar_var env v1 h1 h3
    have hres2 := resolveEnvVar_var env v2 h2 h4
    rw [h5] at hres1
    rw [h6] at hres2
    have hb : base64Encode (utf8Encode [':']) = ['O', 'g', '=', '='] := by decide
    simp [getFetchOptions, hres1, hres2, hb]

/-- C10 witness: concrete bearer source with token `${T}` and an
environment where every variable is unset. -/
theorem getFetchOptions_unset_env_witness :
    getFetchOptions (fun _ => none) ⟨['s'], true, none,
        some ⟨AuthType.bearer, some ('$' :: '{' :: (['T'] ++ ['}'])), none, none⟩⟩ =
      some [("Authorization".toList, "Bearer ".toList)] :=
  (getFetchOptions_unset_env (fun _ => none) ['s'] none ['T'] ['P']).1
    (by decide) (by decide) rfl

end MoonRegistry